import Mathlib

/-!
Shallow embedding of `scripts/makenoto.py`, a build-time code generator that
scans `include/mupdf/ucdn.h` for `UCDN_SCRIPT_*` identifiers, globs the noto
font directory, and prints `case …: RETURN(noto_…);` / `case …: break;` lines
plus diagnostic comments.

Python strings are modelled as Lean `String` (a packed `List Char`); the
single-character `str.replace` / `str.lower` / `str.capitalize` calls are
modelled character-wise, which agrees with Python on the ASCII data this
script manipulates.  The Python `dict` built by the comprehension on line 42
is modelled as an insertion-ordered association list, and `sorted` as
insertion sort (the keys are distinct, so any correct sort yields exactly
Python's output).  Fallible operations (`list.remove`, indexing, `dict[k]`)
return `Option`, and the whole run returns `Except RunError` so that the
abort behaviour of the script is visible.
-/

set_option autoImplicit false

namespace Makenoto

/-- Character-wise lowercasing, modelling Python `str.lower` on ASCII. -/
def pyLower (s : String) : String := ⟨s.data.map Char.toLower⟩

/-- Replace every occurrence of the character `a` by `b`, modelling the
single-character `str.replace(a, b)` calls of the script. -/
def replaceChar (a b : Char) (s : String) : String :=
  ⟨s.data.map (fun c => if c = a then b else c)⟩

/-- Python `str.capitalize()`: first character uppercased, rest lowercased. -/
def pyCapitalize (s : String) : String :=
  match s.data with
  | [] => ⟨[]⟩
  | c :: cs => ⟨c.toUpper :: cs.map Char.toLower⟩

/-- One step of whitespace tokenisation (`tok` is the token being built to
the right of the current character). -/
def tokStep (c : Char) (acc : List Char × List (List Char)) :
    List Char × List (List Char) :=
  if c.isWhitespace then
    if acc.1.isEmpty then ([], acc.2) else ([], acc.1 :: acc.2)
  else (c :: acc.1, acc.2)

/-- Python `str.split()` with no argument: split on whitespace, dropping
empty pieces. -/
def pySplitWs (s : String) : List String :=
  let r := s.data.foldr tokStep ([], [])
  (if r.1.isEmpty then r.2 else r.1 :: r.2).map (fun cs => ⟨cs⟩)

/-- One step of single-character splitting; the accumulator is the nonempty
list of pieces to the right. -/
def splitCharStep (sep : Char) (c : Char) (acc : List (List Char)) :
    List (List Char) :=
  match acc with
  | [] => if c = sep then [[], []] else [[c]]
  | t :: ts => if c = sep then [] :: t :: ts else (c :: t) :: ts

/-- Python `str.split(sep)` for a single-character separator, keeping empty
pieces (as `"a__b".split("_") == ["a", "", "b"]`). -/
def splitOnCharL (sep : Char) (cs : List Char) : List (List Char) :=
  cs.foldr (splitCharStep sep) [[]]

/-- Lexicographic comparison by code point, as Python compares strings. -/
def charListLe : List Char → List Char → Bool
  | [], _ => true
  | _ :: _, [] => false
  | c :: cs, d :: ds =>
    if c = d then charListLe cs ds else c.toNat < d.toNat

def pyStrLe (a b : String) : Bool :=
  charListLe a.data b.data

/-- The order `sorted` uses on the lowercase keys. -/
def keyOrder (a b : String) : Prop := pyStrLe a b = true

instance keyOrderDec : DecidableRel keyOrder := fun a b =>
  instDecidableEqBool (pyStrLe a b) true

/-- `s.startswith(pre)` on character lists. -/
def startsWithChars : List Char → List Char → Bool
  | _, [] => true
  | [], _ :: _ => false
  | c :: cs, p :: ps => c = p && startsWithChars cs ps

def pyStartsWith (s pre : String) : Bool :=
  startsWithChars s.data pre.data

/-- Python `os.path.basename`: everything after the last `/`. -/
def basename (p : String) : String :=
  ⟨(splitOnCharL '/' p.data).getLastD []⟩

/-- Python `list.remove`: drop the first occurrence of `x`, or fail with a
`ValueError` (modelled as `none`) when `x` is absent. -/
def pyRemove : List String → String → Option (List String)
  | [], _ => none
  | y :: ys, x => if y = x then some ys else (pyRemove ys x).map (y :: ·)

/-- The loop `for s in blacklist: scripts.remove(s)` (lines 33-34):
sequentially remove one occurrence of each listed name, aborting the whole
run when one is absent. -/
def removeAll : List String → List String → Option (List String)
  | acc, [] => some acc
  | acc, s :: rest => (pyRemove acc s).bind (fun acc' => removeAll acc' rest)

/-- The header scan (lines 7-11): for every line starting with `#define`,
take the second whitespace token and keep it when it starts with
`UCDN_SCRIPT_`.  A `#define` line with no second token raises `IndexError`
in Python, modelled as `none`. -/
def extractScripts : List String → Option (List String)
  | [] => some []
  | line :: rest =>
    if pyStartsWith line "#define" then
      match (pySplitWs line).get? 1 with
      | none => none
      | some name =>
        if pyStartsWith name "UCDN_SCRIPT_" then
          (extractScripts rest).map (name :: ·)
        else extractScripts rest
    else extractScripts rest

/-- The hardcoded blacklist (lines 13-31). -/
def blacklist : List String :=
  [ "UCDN_SCRIPT_UNKNOWN",
    "UCDN_SCRIPT_INHERITED",
    "UCDN_SCRIPT_COMMON",
    "UCDN_SCRIPT_LATIN",
    "UCDN_SCRIPT_GREEK",
    "UCDN_SCRIPT_CYRILLIC",
    "UCDN_SCRIPT_HIRAGANA",
    "UCDN_SCRIPT_KATAKANA",
    "UCDN_SCRIPT_BOPOMOFO",
    "UCDN_SCRIPT_HAN",
    "UCDN_SCRIPT_HANGUL",
    "UCDN_SCRIPT_BRAILLE",
    "UCDN_SCRIPT_MEROITIC_CURSIVE",
    "UCDN_SCRIPT_MEROITIC_HIEROGLYPHS",
    "UCDN_SCRIPT_SYRIAC" ]

/-- `glob.glob("resources/fonts/noto/*.?tf")` restricted to one directory
entry: the basename must not be hidden (glob's `*` does not match a leading
dot) and must end in `.` followed by exactly one character followed by
`tf` (`?` matches exactly one character). -/
def tailIsDotXtf : List Char → Bool
  | [d, _, t, f] => d = '.' && t = 't' && f = 'f'
  | _ => false

def globTfMatch (name : String) : Bool :=
  match name.data with
  | [] => false
  | c0 :: _ =>
    if c0 = '.' then false
    else tailIsDotXtf (name.data.drop (name.data.length - 4))

def fontsDir : String := "resources/fonts/noto/"

/-- Lookup in the insertion-ordered association list modelling the `lower`
dict (line 42). -/
def dictFind : List (String × String) → String → Option String
  | [], _ => none
  | p :: rest, k => if p.1 = k then some p.2 else dictFind rest k

/-- `n in lower` (line 46). -/
def isKey (d : List (String × String)) (k : String) : Bool :=
  (dictFind d k).isSome

/-- `del lower[n]` (line 49): remove the binding for `k`. -/
def dictDelete : List (String × String) → String → List (String × String)
  | [], _ => []
  | p :: rest, k => if p.1 = k then dictDelete rest k else p :: dictDelete rest k

/-- `lower[k] = v` for the dict comprehension: overwrite in place or append. -/
def dictInsert (d : List (String × String)) (k v : String) : List (String × String) :=
  if isKey d k then d.map (fun p => if p.1 = k then (k, v) else p)
  else d ++ [(k, v)]

/-- `lower = {f.lower(): os.path.basename(f) for f in fonts}` (line 42). -/
def mkLower (fonts : List String) : List (String × String) :=
  fonts.foldl (fun d f => dictInsert d (pyLower f) (basename f)) []

def keysOf (d : List (String × String)) : List String := d.map (·.1)

/-- The state threaded through the main loop: the live `lower` index, the
`unused` pool and the lines printed so far. -/
structure St where
  lower : List (String × String)
  unused : List String
  output : List String
  deriving DecidableEq

/-- The symbol transformation of line 47:
`lower[n].replace('.','_').replace('-','_')`. -/
def symbolOf (b : String) : String :=
  replaceChar '-' '_' (replaceChar '.' '_' b)

def returnLine (us nn : String) : String :=
  "case " ++ us ++ ": RETURN(noto_" ++ nn ++ ");"

def breakLine (us : String) : String :=
  "case " ++ us ++ ": break;"

/-- `casefont` (lines 45-51). The `ss` parameter is unused, as in the
source. -/
def casefont (st : St) (us ss n : String) : St × Bool :=
  match dictFind st.lower n with
  | some b =>
    ({ lower := dictDelete st.lower n,
       unused := st.unused,
       output := st.output ++ [returnLine us (symbolOf b)] }, true)
  | none => (st, false)

/-- `any(casefont(us, ss, font.lower()) for font in list)` (line 61): the
generator is consumed lazily, stopping at the first hit. -/
def anyCasefont (st : St) (us ss : String) : List String → St × Bool
  | [] => (st, false)
  | f :: fs =>
    let r := casefont st us ss (pyLower f)
    if r.2 then (r.1, true) else anyCasefont r.1 us ss fs

/-- The derived CamelCase fragment of line 54:
`"".join([s.capitalize() for s in us.split("_")[2:]])`. -/
def deriveSS (us : String) : String :=
  String.join (((splitOnCharL '_' us.data).drop 2).map
    (fun cs => pyCapitalize ⟨cs⟩))

/-- The four candidate paths of lines 55-60, in source order. -/
def candidates (ss : String) : List String :=
  [ fontsDir ++ "NotoSerif" ++ ss ++ "-Regular.otf",
    fontsDir ++ "NotoSans" ++ ss ++ "-Regular.otf",
    fontsDir ++ "NotoSerif" ++ ss ++ "-Regular.ttf",
    fontsDir ++ "NotoSans" ++ ss ++ "-Regular.ttf" ]

/-- Lines 64-65: `for font in list: if font.lower() in unused:
unused.remove(font.lower())`. -/
def stripUnused (unused : List String) (cands : List String) : List String :=
  cands.foldl
    (fun u f => if pyLower f ∈ u then u.erase (pyLower f) else u) unused

/-- One iteration of the main loop (lines 53-65). -/
def processScript (st : St) (us : String) : St :=
  let ss := deriveSS us
  let cands := candidates ss
  let r := anyCasefont st us ss cands
  let st2 :=
    if r.2 then r.1
    else { r.1 with output := r.1.output ++ [breakLine us] }
  { st2 with unused := stripUnused st2.unused cands }

/-- The whole `for us in scripts` loop. -/
def mainLoop (st : St) : List String → St
  | [] => st
  | us :: rest => mainLoop (processScript st us) rest

/-- Lines 67-68: `for f in unused: print("// unmapped font:", lower[f])`.
The `lower[f]` subscript raises `KeyError` when `f` is no longer a key,
modelled as `none`. -/
def mapLookup (d : List (String × String)) : List String → Option (List String)
  | [] => some []
  | f :: fs =>
    match dictFind d f with
    | some b => (mapLookup d fs).map (("// unmapped font: " ++ b) :: ·)
    | none => none

def unmappedLines (st : St) : Option (List String) :=
  mapLookup st.lower st.unused

/-- Lines 70-72: iterate the remaining dict in insertion order. -/
def unusedFileLines (st : St) : List String :=
  (st.lower.filter (fun p => !(p.1 ∈ st.unused : Bool))).map
    (fun p => "// unused font file: " ++ p.2)

/-- The state at line 53, before the main loop, given the directory entries
of `resources/fonts/noto`. -/
def initState (dirEntries : List String) : St :=
  let fonts := (dirEntries.filter globTfMatch).map (fun e => fontsDir ++ e)
  let lower := mkLower fonts
  { lower := lower,
    unused := List.insertionSort keyOrder (keysOf lower),
    output := [] }

/-- The state after the main loop. -/
def finalState (dirEntries : List String) (scripts : List String) : St :=
  mainLoop (initState dirEntries) scripts

inductive RunError where
  | indexError
  | valueError
  | keyError
  deriving DecidableEq

instance exceptDecEq {ε α : Type} [DecidableEq ε] [DecidableEq α] :
    DecidableEq (Except ε α) := fun a b =>
  match a, b with
  | .ok x, .ok y =>
    if h : x = y then isTrue (by rw [h]) else
      isFalse (fun hh => h (Except.ok.inj hh))
  | .error x, .error y =>
    if h : x = y then isTrue (by rw [h]) else
      isFalse (fun hh => h (Except.error.inj hh))
  | .ok _, .error _ => isFalse (fun hh => Except.noConfusion hh)
  | .error _, .ok _ => isFalse (fun hh => Except.noConfusion hh)

/-- The whole script, from the header lines and the font-directory entries
to the printed lines (or the uncaught exception that aborts the run before
any output). -/
def runFrom (scripts dirEntries : List String) :
    Except RunError (List String) :=
  let st := finalState dirEntries scripts
  match unmappedLines st with
  | none => .error .keyError
  | some um => .ok (st.output ++ um ++ unusedFileLines st)

def run (headerLines dirEntries : List String) : Except RunError (List String) :=
  match extractScripts headerLines with
  | none => .error .indexError
  | some s0 =>
    match removeAll s0 blacklist with
    | none => .error .valueError
    | some scripts => runFrom scripts dirEntries

/-!  Derived (specification-side) views of the main loop, used to state and
prove the claims.  `winner` is the first of the four candidates whose
lowercasing is a key of the live index — exactly the candidate that
`any(casefont(...))` claims. -/

def winner (d : List (String × String)) : List String → Option String
  | [] => none
  | f :: fs => if isKey d (pyLower f) then some f else winner d fs

/-- The keys claimed by the successive scripts, in claim order, starting
from the index `d`. -/
def claimedKeys (d : List (String × String)) : List String → List String
  | [] => []
  | us :: rest =>
    match winner d (candidates (deriveSS us)) with
    | some f => pyLower f :: claimedKeys (dictDelete d (pyLower f)) rest
    | none => claimedKeys d rest

/-- All lowercased candidate names produced over a list of scripts. -/
def allCands : List String → List String
  | [] => []
  | us :: rest => (candidates (deriveSS us)).map pyLower ++ allCands rest

/-!  Concrete inputs used by witnesses and counterexamples. -/

/-- Header lines defining every blacklisted identifier once. -/
def blDefines : List String :=
  blacklist.map (fun n => "#define " ++ n ++ " 1")

/-- A header with the blacklist plus `UCDN_SCRIPT_ARABIC`. -/
def hdrArabic : List String :=
  blDefines ++ ["#define UCDN_SCRIPT_ARABIC 1"]

/-- A header whose two extra identifiers contain `.` and `-`, driving the
generated-symbol collision. -/
def hdrEvil : List String :=
  blDefines ++
  ["#define UCDN_SCRIPT_A-REGULAR.OTF 1",
   "#define UCDN_SCRIPT_A.REGULAR-OTF 1"]

/-- Two distinct font files whose basenames coincide once `.` and `-` are
both replaced by `_`. -/
def evilEntries : List String :=
  ["notoserifa-regular.otf-regular.otf",
   "notoserifa.regular-otf-regular.otf"]

/-- A header in which the blacklisted `UCDN_SCRIPT_SYRIAC` is defined
twice. -/
def hdrDup : List String :=
  blDefines ++ ["#define UCDN_SCRIPT_SYRIAC 99"]

/-- Both the Serif and the Sans otf variant for Arabic. -/
def arabicBoth : List String :=
  ["NotoSerifArabic-Regular.otf", "NotoSansArabic-Regular.otf"]

/-- Only the Sans/ttf variant for Arabic (the spec example). -/
def sansTtf : List String :=
  ["NotoSansArabic-Regular.ttf"]

/-- A font file matching no script-derived candidate name. -/
def xyzzyOnly : List String :=
  ["NotoSansXyzzy-Regular.otf"]

/-!  ## Library of facts about the embedded operations -/

theorem dictFind_delete (d : List (String × String)) (k k' : String) :
    dictFind (dictDelete d k') k = if k = k' then none else dictFind d k := by
  induction d with
  | nil => simp [dictFind, dictDelete]
  | cons p rest ih =>
    show dictFind (if p.1 = k' then dictDelete rest k'
      else p :: dictDelete rest k') k = _
    by_cases h1 : p.1 = k'
    · rw [if_pos h1, ih]
      by_cases h2 : k = k'
      · simp [h2]
      · have hpk : ¬ p.1 = k := fun hh => h2 (hh.symm.trans h1)
        simp [dictFind, h2, hpk]
    · rw [if_neg h1]
      by_cases h3 : p.1 = k
      · have hkk : ¬ k = k' := fun hh => h1 (h3.trans hh)
        simp [dictFind, h3, hkk]
      · simp [dictFind, h3, ih]

theorem isKey_delete (d : List (String × String)) (k k' : String) :
    isKey (dictDelete d k') k = if k = k' then false else isKey d k := by
  by_cases h : k = k' <;> simp [isKey, dictFind_delete, h]

theorem isKey_iff_mem_keysOf (d : List (String × String)) (k : String) :
    isKey d k = true ↔ k ∈ keysOf d := by
  induction d with
  | nil => simp [isKey, dictFind, keysOf]
  | cons p rest ih =>
    by_cases h : p.1 = k
    · constructor
      · intro _
        exact List.mem_cons.mpr (Or.inl h.symm)
      · intro _
        simp [isKey, dictFind, h]
    · simp only [isKey, dictFind, if_neg h, keysOf, List.map_cons,
        List.mem_cons]
      constructor
      · intro hh
        exact Or.inr (ih.mp hh)
      · intro hh
        cases hh with
        | inl he => exact absurd he.symm h
        | inr hm => exact ih.mpr hm

theorem dictFind_isSome_of_mem_keysOf (d : List (String × String))
    (k : String) (h : k ∈ keysOf d) : (dictFind d k).isSome := by
  have := (isKey_iff_mem_keysOf d k).mpr h
  simpa [isKey] using this

theorem pyRemove_isSome (xs : List String) (x : String) :
    (pyRemove xs x).isSome ↔ x ∈ xs := by
  induction xs with
  | nil => simp [pyRemove]
  | cons y ys ih =>
    by_cases h : y = x
    · simp [pyRemove, h]
    · have hxy : ¬ x = y := fun hh => h hh.symm
      simp [pyRemove, h, ih, hxy]

theorem pyRemove_count (xs : List String) :
    ∀ ys x, pyRemove xs x = some ys → ∀ a,
      ys.count a = xs.count a - (if a = x then 1 else 0) := by
  induction xs with
  | nil => intro ys x h a; simp [pyRemove] at h
  | cons y t ih =>
    intro ys x h a
    by_cases hyx : y = x
    · rw [pyRemove, if_pos hyx] at h
      cases h
      subst hyx
      by_cases hax : a = y
      · subst hax
        rw [List.count_cons_self, if_pos rfl]
        omega
      · rw [List.count_cons_of_ne hax, if_neg hax]
        omega
    · rw [pyRemove, if_neg hyx] at h
      rcases Option.map_eq_some'.mp h with ⟨ys', h1, h2⟩
      subst h2
      have hrec := ih ys' x h1 a
      by_cases hay : a = y
      · subst hay
        rw [List.count_cons_self, List.count_cons_self]
        have hax : ¬ a = x := fun hh => hyx (hh.symm.trans rfl).symm
        rw [if_neg hax] at hrec ⊢
        omega
      · rw [List.count_cons_of_ne hay, List.count_cons_of_ne hay]
        exact hrec

theorem removeAll_count (bl : List String) :
    ∀ xs ys, removeAll xs bl = some ys → ∀ a,
      ys.count a = xs.count a - bl.count a := by
  induction bl with
  | nil =>
    intro xs ys h a
    rw [removeAll] at h
    cases h
    simp
  | cons s rest ih =>
    intro xs ys h a
    rw [removeAll] at h
    cases hrem : pyRemove xs s with
    | none => rw [hrem] at h; simp at h
    | some xs' =>
      rw [hrem] at h
      rw [Option.some_bind] at h
      have h1 := pyRemove_count xs xs' s hrem a
      have h2 := ih xs' ys h a
      have hmem : s ∈ xs := (pyRemove_isSome xs s).mp (by rw [hrem]; rfl)
      have hcnt : 0 < xs.count s := by
        rw [List.count_pos_iff]
        exact hmem
      by_cases has : a = s
      · subst has
        rw [List.count_cons_self]
        rw [if_pos rfl] at h1
        omega
      · rw [List.count_cons_of_ne has]
        rw [if_neg has] at h1
        omega

theorem removeAll_isSome (bl : List String) :
    ∀ xs, (removeAll xs bl).isSome = true ↔ ∀ b, bl.count b ≤ xs.count b := by
  induction bl with
  | nil => intro xs; simp [removeAll]
  | cons s rest ih =>
    intro xs
    rw [removeAll]
    cases hrem : pyRemove xs s with
    | none =>
      rw [Option.none_bind]
      have hnot : s ∉ xs := by
        intro hmem
        have hs := (pyRemove_isSome xs s).mpr hmem
        rw [hrem] at hs
        simp at hs
      have hzero : xs.count s = 0 := List.count_eq_zero.mpr hnot
      simp only [Option.isSome_none, Bool.false_eq_true, false_iff,
        not_forall]
      refine ⟨s, ?_⟩
      rw [List.count_cons_self, hzero]
      omega
    | some xs' =>
      rw [Option.some_bind]
      have h1 := pyRemove_count xs xs' s hrem
      have hmem : s ∈ xs := (pyRemove_isSome xs s).mp (by rw [hrem]; rfl)
      have hcnt : 0 < xs.count s := by
        rw [List.count_pos_iff]
        exact hmem
      rw [ih xs']
      constructor
      · intro hall b
        have hb := hall b
        have hc := h1 b
        by_cases hbs : b = s
        · subst hbs
          rw [List.count_cons_self]
          rw [if_pos rfl] at hc
          omega
        · rw [List.count_cons_of_ne hbs]
          rw [if_neg hbs] at hc
          omega
      · intro hall b
        have hb := hall b
        have hc := h1 b
        by_cases hbs : b = s
        · subst hbs
          rw [List.count_cons_self] at hb
          rw [if_pos rfl] at hc
          omega
        · rw [List.count_cons_of_ne hbs] at hb
          rw [if_neg hbs] at hc
          omega

theorem stripUnused_sublist (cands : List String) :
    ∀ u, List.Sublist (stripUnused u cands) u := by
  induction cands with
  | nil => intro u; exact List.Sublist.refl u
  | cons f fs ih =>
    intro u
    have step : stripUnused u (f :: fs) =
        stripUnused (if pyLower f ∈ u then u.erase (pyLower f) else u) fs := rfl
    rw [step]
    refine (ih _).trans ?_
    by_cases h : pyLower f ∈ u
    · rw [if_pos h]
      exact List.erase_sublist _ _
    · rw [if_neg h]

theorem stripUnused_mem (cands : List String) :
    ∀ u, u.Nodup → ∀ k,
      (k ∈ stripUnused u cands ↔ (k ∈ u ∧ ¬ k ∈ cands.map pyLower)) := by
  induction cands with
  | nil => intro u hnd k; simp [stripUnused]
  | cons f fs ih =>
    intro u hnd k
    have step : stripUnused u (f :: fs) =
        stripUnused (if pyLower f ∈ u then u.erase (pyLower f) else u) fs := rfl
    rw [step]
    have hnd' : (if pyLower f ∈ u then u.erase (pyLower f) else u).Nodup := by
      by_cases h : pyLower f ∈ u
      · rw [if_pos h]
        exact hnd.erase _
      · rw [if_neg h]
        exact hnd
    rw [ih _ hnd' k]
    simp only [List.map_cons, List.mem_cons]
    by_cases h : pyLower f ∈ u
    · rw [if_pos h, hnd.mem_erase_iff]
      tauto
    · rw [if_neg h]
      constructor
      · rintro ⟨hk, hnot⟩
        refine ⟨hk, ?_⟩
        rintro (hh | hh)
        · exact h (hh ▸ hk)
        · exact hnot hh
      · rintro ⟨hk, hnot⟩
        exact ⟨hk, fun hh => hnot (Or.inr hh)⟩

theorem winner_isKey (cands : List String) :
    ∀ d f, winner d cands = some f →
      f ∈ cands ∧ isKey d (pyLower f) = true := by
  induction cands with
  | nil => intro d f h; cases h
  | cons g gs ih =>
    intro d f h
    by_cases hk : isKey d (pyLower g) = true
    · rw [winner, if_pos hk] at h
      cases h
      exact ⟨List.mem_cons_self g gs, hk⟩
    · rw [winner, if_neg hk] at h
      have := ih d f h
      exact ⟨List.mem_cons_of_mem g this.1, this.2⟩

theorem isKey_eq_false_iff (d : List (String × String)) (k : String) :
    ¬ isKey d k = true ↔ dictFind d k = none := by
  cases hd : dictFind d k with
  | none => simp [isKey, hd]
  | some b => simp [isKey, hd]

theorem anyCasefont_unused (cands : List String) :
    ∀ st us ss, (anyCasefont st us ss cands).1.unused = st.unused := by
  induction cands with
  | nil => intro st us ss; rfl
  | cons f fs ih =>
    intro st us ss
    cases hd : dictFind st.lower (pyLower f) with
    | some b => simp [anyCasefont, casefont, hd]
    | none =>
      simp only [anyCasefont, casefont, hd]
      exact ih st us ss

theorem anyCasefont_none (cands : List String) :
    ∀ st us ss, winner st.lower cands = none →
      anyCasefont st us ss cands = (st, false) := by
  induction cands with
  | nil => intro st us ss _; rfl
  | cons f fs ih =>
    intro st us ss h
    by_cases hk : isKey st.lower (pyLower f) = true
    · rw [winner, if_pos hk] at h
      cases h
    · rw [winner, if_neg hk] at h
      have hd : dictFind st.lower (pyLower f) = none :=
        (isKey_eq_false_iff _ _).mp hk
      simp only [anyCasefont, casefont, hd]
      exact ih st us ss h

theorem anyCasefont_some (cands : List String) :
    ∀ st us ss f b, winner st.lower cands = some f →
      dictFind st.lower (pyLower f) = some b →
      anyCasefont st us ss cands =
        ({ lower := dictDelete st.lower (pyLower f),
           unused := st.unused,
           output := st.output ++ [returnLine us (symbolOf b)] }, true) := by
  induction cands with
  | nil => intro st us ss f b h _; cases h
  | cons g gs ih =>
    intro st us ss f b h hb
    by_cases hk : isKey st.lower (pyLower g) = true
    · rw [winner, if_pos hk] at h
      cases h
      simp [anyCasefont, casefont, hb]
    · rw [winner, if_neg hk] at h
      have hd : dictFind st.lower (pyLower g) = none :=
        (isKey_eq_false_iff _ _).mp hk
      simp only [anyCasefont, casefont, hd]
      exact ih st us ss f b h hb

theorem processScript_unused (st : St) (us : String) :
    (processScript st us).unused =
      stripUnused st.unused (candidates (deriveSS us)) := by
  by_cases h : (anyCasefont st us (deriveSS us) (candidates (deriveSS us))).2 = true
  · simp [processScript, h, anyCasefont_unused]
  · simp [processScript, h, anyCasefont_unused]

theorem processScript_break (st : St) (us : String)
    (hw : winner st.lower (candidates (deriveSS us)) = none) :
    processScript st us =
      { lower := st.lower,
        unused := stripUnused st.unused (candidates (deriveSS us)),
        output := st.output ++ [breakLine us] } := by
  have h1 := anyCasefont_none (candidates (deriveSS us)) st us (deriveSS us) hw
  simp [processScript, h1]

theorem processScript_claim (st : St) (us f b : String)
    (hw : winner st.lower (candidates (deriveSS us)) = some f)
    (hb : dictFind st.lower (pyLower f) = some b) :
    processScript st us =
      { lower := dictDelete st.lower (pyLower f),
        unused := stripUnused st.unused (candidates (deriveSS us)),
        output := st.output ++ [returnLine us (symbolOf b)] } := by
  have h1 := anyCasefont_some (candidates (deriveSS us)) st us (deriveSS us)
    f b hw hb
  simp [processScript, h1]

theorem mainLoop_find (scripts : List String) :
    ∀ st k, dictFind (mainLoop st scripts).lower k =
      if k ∈ claimedKeys st.lower scripts then none
      else dictFind st.lower k := by
  induction scripts with
  | nil => intro st k; simp [mainLoop, claimedKeys]
  | cons us rest ih =>
    intro st k
    show dictFind (mainLoop (processScript st us) rest).lower k = _
    cases hw : winner st.lower (candidates (deriveSS us)) with
    | none =>
      rw [ih (processScript st us) k, processScript_break st us hw]
      simp only [claimedKeys, hw]
    | some f =>
      have hk := (winner_isKey _ _ _ hw).2
      rcases Option.isSome_iff_exists.mp (by simpa [isKey] using hk)
        with ⟨b, hb⟩
      rw [ih (processScript st us) k, processScript_claim st us f b hw hb]
      simp only [claimedKeys, hw]
      rw [dictFind_delete]
      by_cases h1 : k ∈ claimedKeys (dictDelete st.lower (pyLower f)) rest
      · simp [h1]
      · by_cases h2 : k = pyLower f
        · simp [h1, h2]
        · simp [h1, h2]

theorem mainLoop_unused_sublist (scripts : List String) :
    ∀ st, List.Sublist (mainLoop st scripts).unused st.unused := by
  induction scripts with
  | nil => intro st; exact List.Sublist.refl _
  | cons us rest ih =>
    intro st
    show List.Sublist (mainLoop (processScript st us) rest).unused _
    refine (ih _).trans ?_
    rw [processScript_unused]
    exact stripUnused_sublist _ _

theorem mainLoop_unused_mem (scripts : List String) :
    ∀ st, st.unused.Nodup → ∀ k,
      (k ∈ (mainLoop st scripts).unused ↔
        (k ∈ st.unused ∧ ¬ k ∈ allCands scripts)) := by
  induction scripts with
  | nil => intro st hnd k; simp [mainLoop, allCands]
  | cons us rest ih =>
    intro st hnd k
    show k ∈ (mainLoop (processScript st us) rest).unused ↔ _
    have hnd' : (processScript st us).unused.Nodup := by
      rw [processScript_unused]
      exact List.Nodup.sublist (stripUnused_sublist _ _) hnd
    rw [ih _ hnd' k, processScript_unused,
      stripUnused_mem _ _ hnd k]
    simp only [allCands, List.mem_append]
    tauto

theorem claimedKeys_isKey (scripts : List String) :
    ∀ d k, k ∈ claimedKeys d scripts → isKey d k = true := by
  induction scripts with
  | nil => intro d k h; simp [claimedKeys] at h
  | cons us rest ih =>
    intro d k h
    cases hw : winner d (candidates (deriveSS us)) with
    | none =>
      simp only [claimedKeys, hw] at h
      exact ih d k h
    | some f =>
      simp only [claimedKeys, hw, List.mem_cons] at h
      cases h with
      | inl he =>
        subst he
        exact (winner_isKey _ _ _ hw).2
      | inr hm =>
        have hrec := ih _ k hm
        rw [isKey_delete] at hrec
        by_cases hk : k = pyLower f
        · rw [if_pos hk] at hrec
          cases hrec
        · rw [if_neg hk] at hrec
          exact hrec

theorem claimedKeys_nodup (scripts : List String) :
    ∀ d, (claimedKeys d scripts).Nodup := by
  induction scripts with
  | nil => intro d; simp [claimedKeys]
  | cons us rest ih =>
    intro d
    cases hw : winner d (candidates (deriveSS us)) with
    | none =>
      simp only [claimedKeys, hw]
      exact ih d
    | some f =>
      simp only [claimedKeys, hw]
      rw [List.nodup_cons]
      refine ⟨?_, ih _⟩
      intro hmem
      have hrec := claimedKeys_isKey rest _ _ hmem
      rw [isKey_delete, if_pos rfl] at hrec
      cases hrec

theorem claimedKeys_subset_allCands (scripts : List String) :
    ∀ d k, k ∈ claimedKeys d scripts → k ∈ allCands scripts := by
  induction scripts with
  | nil => intro d k h; simp [claimedKeys] at h
  | cons us rest ih =>
    intro d k h
    simp only [allCands, List.mem_append]
    cases hw : winner d (candidates (deriveSS us)) with
    | none =>
      simp only [claimedKeys, hw] at h
      exact Or.inr (ih d k h)
    | some f =>
      simp only [claimedKeys, hw, List.mem_cons] at h
      cases h with
      | inl he =>
        subst he
        exact Or.inl (List.mem_map_of_mem pyLower (winner_isKey _ _ _ hw).1)
      | inr hm => exact Or.inr (ih _ k hm)

theorem keysOf_dictInsert (d : List (String × String)) (k v : String) :
    keysOf (dictInsert d k v) =
      if isKey d k then keysOf d else keysOf d ++ [k] := by
  by_cases h : isKey d k
  · rw [dictInsert, if_pos h, if_pos h]
    simp only [keysOf, List.map_map]
    apply List.map_congr_left
    intro p _
    by_cases hp : p.1 = k
    · simp [hp]
    · simp [hp]
  · rw [dictInsert, if_neg h, if_neg h]
    simp [keysOf]

theorem foldl_insert_nodup (fonts : List String) :
    ∀ d, (keysOf d).Nodup →
      (keysOf (fonts.foldl
        (fun d f => dictInsert d (pyLower f) (basename f)) d)).Nodup := by
  induction fonts with
  | nil => intro d h; exact h
  | cons f fs ih =>
    intro d h
    rw [List.foldl_cons]
    apply ih
    rw [keysOf_dictInsert]
    by_cases hk : isKey d (pyLower f)
    · rw [if_pos hk]
      exact h
    · rw [if_neg hk]
      rw [List.nodup_append]
      refine ⟨h, List.nodup_singleton _, ?_⟩
      intro a ha hb
      rw [List.mem_singleton] at hb
      subst hb
      exact hk ((isKey_iff_mem_keysOf d _).mpr ha)

theorem mkLower_keys_nodup (fonts : List String) :
    (keysOf (mkLower fonts)).Nodup := by
  apply foldl_insert_nodup
  simp [keysOf]

theorem initState_lower (e : List String) :
    (initState e).lower =
      mkLower ((e.filter globTfMatch).map (fun en => fontsDir ++ en)) := rfl

theorem initState_unused (e : List String) :
    (initState e).unused =
      List.insertionSort keyOrder (keysOf ((initState e).lower)) := rfl

theorem initState_output (e : List String) : (initState e).output = [] := rfl

theorem initState_unused_nodup (e : List String) :
    (initState e).unused.Nodup := by
  rw [initState_unused]
  have hp := List.perm_insertionSort keyOrder (keysOf ((initState e).lower))
  rw [hp.nodup_iff]
  rw [initState_lower]
  exact mkLower_keys_nodup _

theorem initState_unused_mem (e : List String) (k : String) :
    k ∈ (initState e).unused ↔ isKey (initState e).lower k = true := by
  rw [initState_unused, List.mem_insertionSort]
  exact (isKey_iff_mem_keysOf _ _).symm

theorem charListLe_total (cs : List Char) :
    ∀ ds, charListLe cs ds = true ∨ charListLe ds cs = true := by
  induction cs with
  | nil => intro ds; exact Or.inl rfl
  | cons c ct ih =>
    intro ds
    cases ds with
    | nil => exact Or.inr rfl
    | cons d dt =>
      by_cases hcd : c = d
      · subst hcd
        cases ih dt with
        | inl h => exact Or.inl (by simp [charListLe, h])
        | inr h => exact Or.inr (by simp [charListLe, h])
      · have hne : c.toNat ≠ d.toNat := by
          intro hh
          apply hcd
          rw [← Char.ofNat_toNat c, ← Char.ofNat_toNat d, hh]
        have hdc : ¬ d = c := fun hh => hcd hh.symm
        cases Nat.lt_or_ge c.toNat d.toNat with
        | inl h => exact Or.inl (by simp [charListLe, hcd, h])
        | inr h =>
          have : d.toNat < c.toNat := Nat.lt_of_le_of_ne h (Ne.symm hne)
          exact Or.inr (by simp [charListLe, hdc, this])

theorem charListLe_trans (as : List Char) :
    ∀ bs cs, charListLe as bs = true → charListLe bs cs = true →
      charListLe as cs = true := by
  induction as with
  | nil => intro bs cs _ _; rfl
  | cons a at' ih =>
    intro bs cs h1 h2
    cases bs with
    | nil => simp [charListLe] at h1
    | cons b bt =>
      cases cs with
      | nil => simp [charListLe] at h2
      | cons c ct =>
        by_cases hab : a = b
        · subst hab
          rw [charListLe, if_pos rfl] at h1
          by_cases hbc : a = c
          · subst hbc
            rw [charListLe, if_pos rfl] at h2 ⊢
            exact ih bt ct h1 h2
          · rw [charListLe, if_neg hbc] at h2 ⊢
            exact h2
        · rw [charListLe, if_neg hab] at h1
          have hlt1 : a.toNat < b.toNat := by
            simpa using h1
          by_cases hbc : b = c
          · subst hbc
            have hac : ¬ a = b := hab
            rw [charListLe, if_neg hac]
            simpa using hlt1
          · rw [charListLe, if_neg hbc] at h2
            have hlt2 : b.toNat < c.toNat := by
              simpa using h2
            have hlt : a.toNat < c.toNat := Nat.lt_trans hlt1 hlt2
            have hac : ¬ a = c := by
              intro hh
              subst hh
              exact Nat.lt_irrefl _ hlt
            rw [charListLe, if_neg hac]
            simpa using hlt

theorem keyOrder_total (a b : String) : keyOrder a b ∨ keyOrder b a :=
  charListLe_total a.data b.data

theorem keyOrder_trans (a b c : String) :
    keyOrder a b → keyOrder b c → keyOrder a c :=
  charListLe_trans a.data b.data c.data

theorem mapLookup_isSome (l : List String) (d : List (String × String))
    (h : ∀ f ∈ l, (dictFind d f).isSome = true) :
    (mapLookup d l).isSome = true := by
  induction l with
  | nil => rfl
  | cons f fs ih =>
    have h1 := h f (List.mem_cons_self f fs)
    rcases Option.isSome_iff_exists.mp h1 with ⟨b, hb⟩
    have h2 := ih (fun g hg => h g (List.mem_cons_of_mem f hg))
    simp [mapLookup, hb, h2]

theorem tailIsDotXtf_iff (ds : List Char) :
    tailIsDotXtf ds = true ↔ ∃ c, ds = ['.', c, 't', 'f'] := by
  cases ds with
  | nil => simp [tailIsDotXtf]
  | cons a t1 =>
    cases t1 with
    | nil => simp [tailIsDotXtf]
    | cons b t2 =>
      cases t2 with
      | nil => simp [tailIsDotXtf]
      | cons c t3 =>
        cases t3 with
        | nil => simp [tailIsDotXtf]
        | cons d t4 =>
          cases t4 with
          | nil =>
            simp only [tailIsDotXtf, Bool.and_eq_true, decide_eq_true_eq]
            constructor
            · rintro ⟨⟨h1, h2⟩, h3⟩
              exact ⟨b, by rw [h1, h2, h3]⟩
            · rintro ⟨e, he⟩
              injection he with ha he
              injection he with hb he
              injection he with hc he
              injection he with hd _
              exact ⟨⟨ha, hc⟩, hd⟩
          | cons e t5 => simp [tailIsDotXtf]

theorem drop_tail_shape_iff (xs : List Char) :
    tailIsDotXtf (xs.drop (xs.length - 4)) = true ↔
      ∃ front c, xs = front ++ ['.', c, 't', 'f'] := by
  rw [tailIsDotXtf_iff]
  constructor
  · rintro ⟨c, hc⟩
    refine ⟨xs.take (xs.length - 4), c, ?_⟩
    rw [← hc]
    exact (List.take_append_drop _ xs).symm
  · rintro ⟨front, c, hf⟩
    refine ⟨c, ?_⟩
    subst hf
    have hlen : (front ++ ['.', c, 't', 'f']).length - 4 = front.length := by
      rw [List.length_append]
      simp
    rw [hlen, List.drop_left]

theorem globTfMatch_iff (name : String) :
    globTfMatch name = true ↔
      (name.data.head? ≠ some '.' ∧
        ∃ front c, name.data = front ++ ['.', c, 't', 'f']) := by
  cases hna : name.data with
  | nil =>
    simp only [globTfMatch, hna]
    constructor
    · intro h
      cases h
    · rintro ⟨_, front, c, hf⟩
      cases front <;> cases hf
  | cons c0 rest =>
    simp only [globTfMatch, hna]
    by_cases h0 : c0 = '.'
    · rw [if_pos h0]
      subst h0
      constructor
      · intro h
        cases h
      · rintro ⟨hh, _⟩
        exact absurd rfl hh
    · rw [if_neg h0]
      have hd : (c0 :: rest).head? ≠ some '.' := by
        intro hh
        injection hh with hh
        exact h0 hh
      rw [show (c0 :: rest) = name.data from hna.symm]
      rw [drop_tail_shape_iff]
      rw [hna]
      constructor
      · intro h
        exact ⟨hd, h⟩
      · rintro ⟨_, h⟩
        exact h

/-!  ## Claim theorems -/

/-- C1: for every script identifier processed, the four candidate font
paths are probed in the fixed priority order Serif+otf, Sans+otf,
Serif+ttf, Sans+ttf (the first conjunct spells out the candidate list in
that order, and `winner` is by definition the first candidate whose
lowercasing is in the index), and the first candidate present in the
case-insensitive font index wins: `any(casefont(...))` claims exactly that
candidate, emitting its `RETURN` line.  Instantiated by the witness at
`UCDN_SCRIPT_ARABIC` with both `NotoSerifArabic-Regular.otf` and
`NotoSansArabic-Regular.otf` on disk: the Serif/otf variant is chosen. -/
theorem C1_first_candidate_wins (st : St) (us f b : String)
    (hw : winner st.lower (candidates (deriveSS us)) = some f)
    (hb : dictFind st.lower (pyLower f) = some b) :
    candidates (deriveSS us) =
      [ fontsDir ++ "NotoSerif" ++ deriveSS us ++ "-Regular.otf",
        fontsDir ++ "NotoSans" ++ deriveSS us ++ "-Regular.otf",
        fontsDir ++ "NotoSerif" ++ deriveSS us ++ "-Regular.ttf",
        fontsDir ++ "NotoSans" ++ deriveSS us ++ "-Regular.ttf" ] ∧
    anyCasefont st us (deriveSS us) (candidates (deriveSS us)) =
      ({ lower := dictDelete st.lower (pyLower f),
         unused := st.unused,
         output := st.output ++ [returnLine us (symbolOf b)] }, true) :=
  ⟨rfl, anyCasefont_some (candidates (deriveSS us)) st us (deriveSS us)
    f b hw hb⟩

/-- C1 witness: with both Arabic variants present, `UCDN_SCRIPT_ARABIC`
resolves to the Serif/otf variant. -/
theorem C1_first_candidate_wins_witness :
    candidates (deriveSS "UCDN_SCRIPT_ARABIC") =
      [ fontsDir ++ "NotoSerif" ++ deriveSS "UCDN_SCRIPT_ARABIC" ++
          "-Regular.otf",
        fontsDir ++ "NotoSans" ++ deriveSS "UCDN_SCRIPT_ARABIC" ++
          "-Regular.otf",
        fontsDir ++ "NotoSerif" ++ deriveSS "UCDN_SCRIPT_ARABIC" ++
          "-Regular.ttf",
        fontsDir ++ "NotoSans" ++ deriveSS "UCDN_SCRIPT_ARABIC" ++
          "-Regular.ttf" ] ∧
    anyCasefont (initState arabicBoth) "UCDN_SCRIPT_ARABIC"
        (deriveSS "UCDN_SCRIPT_ARABIC")
        (candidates (deriveSS "UCDN_SCRIPT_ARABIC")) =
      ({ lower := dictDelete (initState arabicBoth).lower
           (pyLower (fontsDir ++ "NotoSerifArabic-Regular.otf")),
         unused := (initState arabicBoth).unused,
         output := (initState arabicBoth).output ++
           [returnLine "UCDN_SCRIPT_ARABIC"
             (symbolOf "NotoSerifArabic-Regular.otf")] }, true) :=
  C1_first_candidate_wins (initState arabicBoth) "UCDN_SCRIPT_ARABIC"
    (fontsDir ++ "NotoSerifArabic-Regular.otf") "NotoSerifArabic-Regular.otf"
    (by decide) (by decide)

/-- C2 counterexample: the claim "no two emitted RETURN lines reference the
same generated symbol" fails.  With two identifiers containing `.` and `-`
and two distinct font files whose basenames coincide once `.` and `-` are
replaced by `_`, the run emits two RETURN lines with the identical symbol
`noto_notoserifa_regular_otf_regular_otf` for two different identifiers. -/
theorem C2_counterexample :
    run hdrEvil evilEntries = Except.ok
      [ returnLine "UCDN_SCRIPT_A-REGULAR.OTF"
          "notoserifa_regular_otf_regular_otf",
        returnLine "UCDN_SCRIPT_A.REGULAR-OTF"
          "notoserifa_regular_otf_regular_otf" ] ∧
    (("UCDN_SCRIPT_A-REGULAR.OTF" : String) ==
      "UCDN_SCRIPT_A.REGULAR-OTF") = false := by
  decide

/-- C2 (amended): no font index entry is claimed by more than one script
identifier — the list of claimed keys over a whole run has no duplicates,
and each claimed key is deleted from the live index when first claimed
(and stays absent to the end of the loop). -/
theorem C2_no_key_claimed_twice (st : St) (scripts : List String) :
    (claimedKeys st.lower scripts).Nodup ∧
    ∀ k, k ∈ claimedKeys st.lower scripts →
      dictFind (mainLoop st scripts).lower k = none := by
  refine ⟨claimedKeys_nodup scripts st.lower, ?_⟩
  intro k hk
  rw [mainLoop_find, if_pos hk]

/-- C2 witness: in the colliding-symbol run, the claimed keys are still
pairwise distinct and the first claimed key is gone from the final index. -/
theorem C2_no_key_claimed_twice_witness :
    (claimedKeys (initState evilEntries).lower
      ["UCDN_SCRIPT_A-REGULAR.OTF", "UCDN_SCRIPT_A.REGULAR-OTF"]).Nodup ∧
    dictFind (mainLoop (initState evilEntries)
        ["UCDN_SCRIPT_A-REGULAR.OTF", "UCDN_SCRIPT_A.REGULAR-OTF"]).lower
      "resources/fonts/noto/notoserifa-regular.otf-regular.otf" = none :=
  ⟨(C2_no_key_claimed_twice (initState evilEntries)
      ["UCDN_SCRIPT_A-REGULAR.OTF", "UCDN_SCRIPT_A.REGULAR-OTF"]).1,
   (C2_no_key_claimed_twice (initState evilEntries)
      ["UCDN_SCRIPT_A-REGULAR.OTF", "UCDN_SCRIPT_A.REGULAR-OTF"]).2
     "resources/fonts/noto/notoserifa-regular.otf-regular.otf" (by decide)⟩

/-- C3: when a script identifier matches a candidate font, the emitted line
is exactly `case <ID>: RETURN(noto_<transformed>);` where the transformed
basename is the matched basename with every `.` and every `-` replaced by
`_` (the second conjunct states the character-wise replacement). -/
theorem C3_return_line_shape (st : St) (us f b : String)
    (hw : winner st.lower (candidates (deriveSS us)) = some f)
    (hb : dictFind st.lower (pyLower f) = some b) :
    (processScript st us).output =
      st.output ++
        ["case " ++ us ++ ": RETURN(noto_" ++ symbolOf b ++ ");"] ∧
    (symbolOf b).data =
      b.data.map (fun c => if c = '.' ∨ c = '-' then '_' else c) := by
  constructor
  · rw [processScript_claim st us f b hw hb]
    rfl
  · simp only [symbolOf, replaceChar, List.map_map]
    apply List.map_congr_left
    intro c _
    by_cases h1 : c = '.'
    · simp [h1, Function.comp]
    · by_cases h2 : c = '-' <;> simp [h1, h2, Function.comp]

/-- C3 witness: the spec example — with only `NotoSansArabic-Regular.ttf`
on disk, `UCDN_SCRIPT_ARABIC` emits
`case UCDN_SCRIPT_ARABIC: RETURN(noto_NotoSansArabic_Regular_ttf);`. -/
theorem C3_return_line_shape_witness :
    (processScript (initState sansTtf) "UCDN_SCRIPT_ARABIC").output =
      (initState sansTtf).output ++
        ["case " ++ "UCDN_SCRIPT_ARABIC" ++ ": RETURN(noto_" ++
          symbolOf "NotoSansArabic-Regular.ttf" ++ ");"] ∧
    (symbolOf "NotoSansArabic-Regular.ttf").data =
      "NotoSansArabic-Regular.ttf".data.map
        (fun c => if c = '.' ∨ c = '-' then '_' else c) :=
  C3_return_line_shape (initState sansTtf) "UCDN_SCRIPT_ARABIC"
    (fontsDir ++ "NotoSans" ++ deriveSS "UCDN_SCRIPT_ARABIC" ++
      "-Regular.ttf")
    "NotoSansArabic-Regular.ttf" (by decide) (by decide)

/-- C4: given that identifier extraction succeeds with sequence `s0`, the
run aborts with the uncaught lookup error (`ValueError` from
`list.remove`) if and only if the blacklist is not a sub-multiset of `s0`;
in the abort case the result is the bare error, so no output is
produced. -/
theorem C4_blacklist_abort (headerLines dirEntries s0 : List String)
    (hext : extractScripts headerLines = some s0) :
    run headerLines dirEntries = Except.error RunError.valueError ↔
      ¬ ∀ b, blacklist.count b ≤ s0.count b := by
  cases hrm : removeAll s0 blacklist with
  | none =>
    have hnot : ¬ ((removeAll s0 blacklist).isSome = true) := by
      rw [hrm]
      simp
    have hforall : ¬ ∀ b, blacklist.count b ≤ s0.count b := fun hf =>
      hnot ((removeAll_isSome blacklist s0).mpr hf)
    have hrun : run headerLines dirEntries = Except.error RunError.valueError := by
      simp [run, hext, hrm]
    exact iff_of_true hrun hforall
  | some scripts =>
    have hforall : ∀ b, blacklist.count b ≤ s0.count b :=
      (removeAll_isSome blacklist s0).mp (by rw [hrm]; rfl)
    have hne : run headerLines dirEntries ≠ Except.error RunError.valueError := by
      cases hum : unmappedLines (finalState dirEntries scripts) with
      | none => simp [run, hext, hrm, runFrom, hum]
      | some um => simp [run, hext, hrm, runFrom, hum]
    exact iff_of_false hne (fun hc => hc hforall)

/-- C4 witness: a header defining only `UCDN_SCRIPT_ARABIC` misses every
blacklisted name, so the run aborts with the lookup error. -/
theorem C4_blacklist_abort_witness :
    run ["#define UCDN_SCRIPT_ARABIC 1"] [] =
        Except.error RunError.valueError ↔
      ¬ ∀ b, blacklist.count b ≤
        (["UCDN_SCRIPT_ARABIC"] : List String).count b :=
  C4_blacklist_abort ["#define UCDN_SCRIPT_ARABIC 1"] []
    ["UCDN_SCRIPT_ARABIC"] (by decide)

/-- C5 counterexample: the claim fails for extracted sequences in which a
blacklisted name occurs more than once.  A header defining
`UCDN_SCRIPT_SYRIAC` twice extracts a sequence whose blacklist removal
succeeds yet leaves one `UCDN_SCRIPT_SYRIAC` — a blacklisted name — in the
working sequence. -/
theorem C5_counterexample :
    extractScripts hdrDup = some (blacklist ++ ["UCDN_SCRIPT_SYRIAC"]) ∧
    removeAll (blacklist ++ ["UCDN_SCRIPT_SYRIAC"]) blacklist =
      some ["UCDN_SCRIPT_SYRIAC"] ∧
    "UCDN_SCRIPT_SYRIAC" ∈ blacklist ∧
    "UCDN_SCRIPT_SYRIAC" ∈ (["UCDN_SCRIPT_SYRIAC"] : List String) := by
  decide

/-- C5 (amended): for every extracted sequence in which each blacklisted
name occurs at most once, after blacklist removal completes without
aborting, none of the blacklisted names remain. -/
theorem C5_blacklist_removed (s0 res : List String)
    (hone : ∀ b ∈ blacklist, s0.count b ≤ 1)
    (h : removeAll s0 blacklist = some res) :
    ∀ b ∈ blacklist, ¬ b ∈ res := by
  intro b hb
  have hc := removeAll_count blacklist s0 res h b
  have hbl : 0 < blacklist.count b := by
    rw [List.count_pos_iff]
    exact hb
  have hs0 := hone b hb
  intro hmem
  have hres : 0 < res.count b := by
    rw [List.count_pos_iff]
    exact hmem
  omega

/-- C5 witness: removing the blacklist from the blacklist followed by
`UCDN_SCRIPT_ARABIC` leaves no blacklisted name behind. -/
theorem C5_blacklist_removed_witness :
    ¬ "UCDN_SCRIPT_SYRIAC" ∈ (["UCDN_SCRIPT_ARABIC"] : List String) :=
  C5_blacklist_removed (blacklist ++ ["UCDN_SCRIPT_ARABIC"])
    ["UCDN_SCRIPT_ARABIC"] (by decide) (by decide)
    "UCDN_SCRIPT_SYRIAC" (by decide)

/-- C6 counterexample: the glob pattern `*.?tf` does not cover two-letter
`.tf` extensions — `?` matches exactly one character — so a file named
`font.tf` is not enumerated, contradicting the claim that two-letter
`.tf` files are selected. -/
theorem C6_counterexample :
    globTfMatch "font.tf" = false ∧ globTfMatch "a.otf" = true ∧
    List.filter globTfMatch ["font.tf", "a.otf"] = ["a.otf"] := by
  decide

/-- C6 (amended): font enumeration selects exactly the non-hidden files
whose name ends in `.` followed by exactly one character followed by
`tf` — i.e. three-character extensions ending in `tf` such as
`.otf`/`.ttf`; a plain two-letter `.tf` extension is not enumerated. -/
theorem C6_glob_suffix (name : String) :
    globTfMatch name = true ↔
      (name.data.head? ≠ some '.' ∧
        ∃ front c, name.data = front ++ ['.', c, 't', 'f']) :=
  globTfMatch_iff name

/-- C7: after all identifiers are processed, a key is still in the
"unused" pool (and hence is reported as `// unmapped font:`) exactly when
it was an enumerated font key that was never produced as one of the four
lowercased candidate names of any processed script; and a key is still in
the live index but outside the pool (and hence is reported as
`// unused font file:`) exactly when it was an enumerated font key that
was produced as a candidate of some script yet never claimed as a
match. -/
theorem C7_report_sets (dirEntries scripts : List String) (k : String) :
    (k ∈ (finalState dirEntries scripts).unused ↔
      (isKey (initState dirEntries).lower k = true ∧
        ¬ k ∈ allCands scripts)) ∧
    ((isKey (finalState dirEntries scripts).lower k = true ∧
        ¬ k ∈ (finalState dirEntries scripts).unused) ↔
      (isKey (initState dirEntries).lower k = true ∧
        k ∈ allCands scripts ∧
        ¬ k ∈ claimedKeys (initState dirEntries).lower scripts)) := by
  have hnd := initState_unused_nodup dirEntries
  have hU : ∀ x, x ∈ (finalState dirEntries scripts).unused ↔
      (x ∈ (initState dirEntries).unused ∧ ¬ x ∈ allCands scripts) :=
    mainLoop_unused_mem scripts _ hnd
  have hL : ∀ x, dictFind (finalState dirEntries scripts).lower x =
      if x ∈ claimedKeys (initState dirEntries).lower scripts then none
      else dictFind (initState dirEntries).lower x :=
    mainLoop_find scripts _
  constructor
  · rw [hU k, initState_unused_mem dirEntries k]
  · constructor
    · rintro ⟨hkey, hnotU⟩
      by_cases hcl : k ∈ claimedKeys (initState dirEntries).lower scripts
      · rw [isKey, hL k, if_pos hcl] at hkey
        cases hkey
      · rw [isKey, hL k, if_neg hcl] at hkey
        have hinit : isKey (initState dirEntries).lower k = true := hkey
        refine ⟨hinit, ?_, hcl⟩
        by_contra hnc
        exact hnotU ((hU k).mpr
          ⟨(initState_unused_mem dirEntries k).mpr hinit, hnc⟩)
    · rintro ⟨hinit, hall, hncl⟩
      constructor
      · rw [isKey, hL k, if_neg hncl]
        exact hinit
      · intro hu
        exact ((hU k).mp hu).2 hall

/-- C8: for a script identifier none of whose four candidates is in the
index, the emitted line is exactly `case <ID>: break;`; and regardless of
match outcome, all four candidate keys are removed from the "unused" pool
if present. -/
theorem C8_no_match (st : St) (us : String) (hnd : st.unused.Nodup) :
    (winner st.lower (candidates (deriveSS us)) = none →
      (processScript st us).output =
        st.output ++ ["case " ++ us ++ ": break;"]) ∧
    ∀ f, f ∈ candidates (deriveSS us) →
      ¬ pyLower f ∈ (processScript st us).unused := by
  constructor
  · intro hw
    rw [processScript_break st us hw]
    rfl
  · intro f hf
    rw [processScript_unused, stripUnused_mem _ _ hnd]
    rintro ⟨_, hnot⟩
    exact hnot (List.mem_map_of_mem pyLower hf)

/-- C8 witness: with only the unrelated `NotoSansXyzzy-Regular.otf` on
disk, `UCDN_SCRIPT_ARABIC` emits a break line, and the Serif/otf candidate
key is not in the pool afterwards. -/
theorem C8_no_match_witness :
    (processScript (initState xyzzyOnly) "UCDN_SCRIPT_ARABIC").output =
      (initState xyzzyOnly).output ++
        ["case " ++ "UCDN_SCRIPT_ARABIC" ++ ": break;"] ∧
    ¬ pyLower (fontsDir ++ "NotoSerif" ++ deriveSS "UCDN_SCRIPT_ARABIC" ++
        "-Regular.otf") ∈
      (processScript (initState xyzzyOnly) "UCDN_SCRIPT_ARABIC").unused :=
  ⟨(C8_no_match (initState xyzzyOnly) "UCDN_SCRIPT_ARABIC" (by decide)).1
     (by decide),
   (C8_no_match (initState xyzzyOnly) "UCDN_SCRIPT_ARABIC" (by decide)).2
     (fontsDir ++ "NotoSerif" ++ deriveSS "UCDN_SCRIPT_ARABIC" ++
       "-Regular.otf") (by decide)⟩

/-- C9: the "unused" pool is initialized sorted in ascending key order,
every removal preserves the order (the final pool is a sublist of the
initial one), and so the pool iterated for the `// unmapped font:`
comments at the end of the run is still sorted ascending. -/
theorem C9_unused_sorted (dirEntries scripts : List String) :
    (initState dirEntries).unused.Sorted keyOrder ∧
    List.Sublist (finalState dirEntries scripts).unused
      (initState dirEntries).unused ∧
    (finalState dirEntries scripts).unused.Sorted keyOrder := by
  haveI : IsTotal String keyOrder := ⟨keyOrder_total⟩
  haveI : IsTrans String keyOrder := ⟨keyOrder_trans⟩
  have hs : (initState dirEntries).unused.Sorted keyOrder := by
    rw [initState_unused]
    exact List.sorted_insertionSort keyOrder _
  exact ⟨hs, mainLoop_unused_sublist scripts _,
    List.Pairwise.sublist (mainLoop_unused_sublist scripts _) hs⟩

/-- C10: at the start of the unmapped-font report every key still in the
"unused" pool is still a key of the live index, so the `lower[f]` lookup
of every report line succeeds: the report construction never fails, and
the whole run never aborts with a `KeyError`. -/
theorem C10_report_lookup_safe (dirEntries scripts headerLines : List String) :
    (∀ k, k ∈ (finalState dirEntries scripts).unused →
      isKey (finalState dirEntries scripts).lower k = true) ∧
    (unmappedLines (finalState dirEntries scripts)).isSome = true ∧
    run headerLines dirEntries ≠ Except.error RunError.keyError := by
  have hmainAll : ∀ ds ss k, k ∈ (finalState ds ss).unused →
      isKey (finalState ds ss).lower k = true := by
    intro ds ss k hk
    have hnd := initState_unused_nodup ds
    have h1 := (mainLoop_unused_mem ss _ hnd k).mp hk
    have hinit : isKey (initState ds).lower k = true :=
      (initState_unused_mem ds k).mp h1.1
    have hncl : ¬ k ∈ claimedKeys (initState ds).lower ss := fun hc =>
      h1.2 (claimedKeys_subset_allCands ss _ k hc)
    have hL := mainLoop_find ss (initState ds) k
    show (dictFind (mainLoop (initState ds) ss).lower k).isSome = true
    rw [hL, if_neg hncl]
    exact hinit
  have hsomeAll : ∀ ds ss,
      (unmappedLines (finalState ds ss)).isSome = true := by
    intro ds ss
    apply mapLookup_isSome
    intro f hf
    exact hmainAll ds ss f hf
  refine ⟨hmainAll dirEntries scripts, hsomeAll dirEntries scripts, ?_⟩
  cases hext : extractScripts headerLines with
  | none => simp [run, hext]
  | some s0 =>
    cases hrm : removeAll s0 blacklist with
    | none => simp [run, hext, hrm]
    | some scripts2 =>
      have hs := hsomeAll dirEntries scripts2
      rcases Option.isSome_iff_exists.mp hs with ⟨um, hum⟩
      simp [run, hext, hrm, runFrom, hum]

/-- C10 witness: a concrete run (unmatched font present) where the final
pool key is still in the index, the report succeeds, and the run does not
end in a `KeyError`. -/
theorem C10_report_lookup_safe_witness :
    isKey (finalState xyzzyOnly ["UCDN_SCRIPT_ARABIC"]).lower
      (pyLower (fontsDir ++ "NotoSansXyzzy-Regular.otf")) = true ∧
    (unmappedLines (finalState xyzzyOnly ["UCDN_SCRIPT_ARABIC"])).isSome =
      true ∧
    run hdrArabic xyzzyOnly ≠ Except.error RunError.keyError :=
  ⟨(C10_report_lookup_safe xyzzyOnly ["UCDN_SCRIPT_ARABIC"] hdrArabic).1
     (pyLower (fontsDir ++ "NotoSansXyzzy-Regular.otf")) (by decide),
   (C10_report_lookup_safe xyzzyOnly ["UCDN_SCRIPT_ARABIC"] hdrArabic).2.1,
   (C10_report_lookup_safe xyzzyOnly ["UCDN_SCRIPT_ARABIC"] hdrArabic).2.2⟩

end Makenoto
